import Mathlib

/-!
Shallow embedding of the reconciliation core of
`final_verification_nov22_2025/0000 - get matching sha1 files.py`.

Conventions of the embedding:
* A file is a pair of its (path-relative) name and its SHA-1 content digest,
  both plain strings.  Hashing a file is reading the second component.
* The canonical store (`DEST_DIR`) holds only top-level `<texture>.png` files;
  the host filesystem is case-insensitive, so store keys are kept lowercased
  via `storeKey` exactly where the code relies on `os.path.exists` /
  `.lower()` comparisons.
* The quarantine directory `conflicted/` is modelled structurally: an entry
  records the base texture name, the bracketed disambiguator index and the
  digest of the quarantined file (the on-disk name is `base-[idx].png`,
  reconstructed by `qName`).
* Python dicts keyed by strings are association lists read through `alook`;
  Python sets of texture names are lists in the process-specific iteration
  order of the set (the order `next(iter(...))` and `list(...)` observe).
* The worker pool of `run_pass` is modelled as a sequential fold: the whole
  per-candidate mutation is a single critical section, and `as_completed`
  order is abstracted to list order.
* The unbounded `while` loop of `get_conflict_path` is modelled by
  `findFreeIdx` with provably sufficient fuel (`qsup q + 1`); the theorems
  characterise the result as the least free positive index, independent of
  the fuel bound.
* Log output is a list of structured entries recording exactly the
  `log_line` calls of the decision branches; read-only verification helpers
  that only print reports are omitted.
-/

namespace MGS2

/-- Lowercasing of a file or texture name (Python `.lower()` restricted to
the ASCII names the script handles), implemented by structural recursion on
the character list so that concrete instances evaluate. -/
def lowerStr (s : String) : String := ⟨s.data.map Char.toLower⟩

/-- Python `.strip()` on a CSV field, implemented on the character list. -/
def trimStr (s : String) : String :=
  ⟨((s.data.dropWhile Char.isWhitespace).reverse.dropWhile Char.isWhitespace).reverse⟩

/-- Python `ch in s` for a single character. -/
def strContains (s : String) (c : Char) : Bool := s.data.contains c

/-- Association lookup on string-keyed lists; mirrors Python dict membership
and indexing for the in-memory tables of the script. -/
def alook {β : Type} : List (String × β) → String → Option β
  | [], _ => none
  | (k, v) :: t, key => if k = key then some v else alook t key

/-- The canonical store: lowercased destination file name to content digest. -/
abbrev Store := List (String × String)

/-- The in-memory `existing_sha1s` index: digest to the list of store file
names recorded for it (`collect_existing_sha1s` plus in-pass appends). -/
abbrev Index := List (String × List String)

/-- An evidence table: digest to the set of texture names, the set kept in
its process-specific iteration order. -/
abbrev Mapping := List (String × List String)

/-- Insert or replace a binding in the store; `shutil.move`/`shutil.copy2`
writing a destination path. -/
def storeInsert : Store → String → String → Store
  | [], n, d => [(n, d)]
  | (n1, d1) :: t, n, d => if n1 = n then (n, d) :: t else (n1, d1) :: storeInsert t n d

/-- Append a path under a digest in the index;
`existing_sha1s.setdefault(sha1, []).append(path)`. -/
def indexAdd : Index → String → String → Index
  | [], d, n => [(d, [n])]
  | (d1, ns) :: t, d, n =>
      if d1 = d then (d1, ns ++ [n]) :: t else (d1, ns) :: indexAdd t d n

/-- Destination file name for a texture name: `f"{tex}.png"`, lowercased
because the destination filesystem compares names case-insensitively. -/
def storeKey (texName : String) : String := lowerStr (texName ++ ".png")

/-- A quarantined file `conflicted/<base>-[<idx>].png` with its digest. -/
structure QEntry where
  base : String
  idx : Nat
  digest : String
deriving DecidableEq

/-- On-disk name of a quarantine entry. -/
def qName (q : QEntry) : String := q.base ++ "-[" ++ toString q.idx ++ "].png"

/-- Quarantine files viewed as (name, digest) pairs, as `os.walk` sees them. -/
def QFiles (conf : List QEntry) : List (String × String) :=
  conf.map fun q => (qName q, q.digest)

/-- Whether `conflicted/<base>-[<k>].png` already exists (case-insensitive
filesystem, hence the lowercase comparison of the base name). -/
def qtaken (q : List QEntry) (base : String) (k : Nat) : Bool :=
  q.any fun e => lowerStr e.base == lowerStr base && e.idx == k

/-- An upper bound on the disambiguator indices present in the quarantine. -/
def qsup : List QEntry → Nat
  | [] => 0
  | e :: t => max e.idx (qsup t)

/-- The counting loop of `get_conflict_path`, with explicit fuel: starting
at `k`, return the first index whose quarantine path does not exist. -/
def findFreeIdx (q : List QEntry) (base : String) : Nat → Nat → Nat
  | 0, k => k
  | fuel + 1, k => if qtaken q base k then findFreeIdx q base fuel (k + 1) else k

/-- Disambiguator chosen by `get_conflict_path`: the first `k` from 1 upward
with no existing `conflicted/<base>-[<k>].png`.  Fuel `qsup q + 1` suffices
because index `qsup q + 1` is always free. -/
def conflictIndex (q : List QEntry) (base : String) : Nat :=
  findFreeIdx q base (qsup q + 1) 1

/-- A candidate source PNG: its root-relative path, its basename without
extension lowercased (`original_name`), and its digest. -/
structure Candidate where
  relPath : String
  name : String
  digest : String
deriving DecidableEq

/-- Structured content of the `log_line` calls in the decision branches. -/
inductive LogEntry where
  | deleteEntry (relPath sha1 : String)
  | deployEntry (relPath firstTex sha1 : String)
  | copyEntry (firstTex texName sha1 : String)
  | conflictEntry (relPath base : String) (idx : Nat) (sha1 existingSha1 : String)
  | errorEntry (relPath : String)
deriving DecidableEq

/-- The mutable state threaded through one pass: the store tree, the
quarantine, the `existing_sha1s` index and the combined log. -/
structure PassSt where
  store : Store
  conflicted : List QEntry
  index : Index
  log : List LogEntry
deriving DecidableEq

/-- Return discriminator of `process_file` (which branch performed the
mutation); the Python code distinguishes them by side effects and by the
`success` component of its return tuple. -/
inductive Outcome where
  | delete
  | conflict
  | deployed
  | unmapped
  | errored
deriving DecidableEq

/-- Translation of `all_mapped_files_present`: false when the digest is not
in the table, otherwise every `f"{name}.png".lower()` must occur among the
lowercased basenames the index lists for that digest. -/
def allMappedFilesPresent (sha1 : String) (m : Mapping) (idx : Index) : Bool :=
  match alook m sha1 with
  | none => false
  | some ns => ns.all fun t => ((alook idx sha1).getD []).any fun p => lowerStr p == storeKey t

/-- Whether a file exists at `dest` whose digest differs from `sha1`
(the `os.path.exists` plus `calc_sha1` comparison of the conflict check). -/
def conflictAt (store : Store) (dest sha1 : String) : Bool :=
  match alook store dest with
  | none => false
  | some e => e != sha1

/-- Alias-copy loop body of the deploy branch: for one remaining texture
name, copy the primary file there unless the destination already exists. -/
def copyOne (firstTex sha1 origName : String) (st : PassSt) (texName : String) : PassSt :=
  let destCopy := storeKey texName
  if (alook st.store destCopy).isNone then
    { st with
      store := storeInsert st.store destCopy sha1
      index := indexAdd st.index sha1 (texName ++ ".png")
      log := st.log ++
        (if (!strContains origName '-') && (origName != lowerStr texName) then
          [LogEntry.copyEntry firstTex texName sha1] else []) }
  else st

/-- Deploy branch of `process_file`: move the candidate to the primary path
(overwriting whatever is there), update the index, log the move when the
original name is informative, then run the alias-copy loop. -/
def deployCandidate (c : Candidate) (first : String) (restNames : List String)
    (st : PassSt) : PassSt :=
  let st1 : PassSt :=
    { st with
      store := storeInsert st.store (storeKey first) c.digest
      index := indexAdd st.index c.digest (first ++ ".png")
      log := st.log ++
        (if (!strContains c.name '-') && (c.name != lowerStr first) then
          [LogEntry.deployEntry c.relPath first c.digest] else []) }
  restNames.foldl (copyOne first c.digest c.name) st1

/-- Conflict branch of `process_file`: move the candidate into quarantine
under the first free disambiguated name and log both digests. -/
def quarantineCandidate (c : Candidate) (first : String) (st : PassSt) : PassSt :=
  { st with
    conflicted := ⟨first, conflictIndex st.conflicted first, c.digest⟩ :: st.conflicted
    log := st.log ++
      [LogEntry.conflictEntry c.relPath first (conflictIndex st.conflicted first)
        c.digest ((alook st.store (storeKey first)).getD "")] }

/-- Translation of `process_file` (lines 215-257 of the script).  The
`some []` case mirrors the `StopIteration` of `next(iter(set()))` being
caught by the blanket `except` and logged as an error; evidence tables
produced by the loaders never contain an empty name set. -/
def processFile (conflictCheck : Bool) (m : Mapping) (st : PassSt) (c : Candidate) :
    PassSt × Outcome :=
  if (alook st.index c.digest).isSome && allMappedFilesPresent c.digest m st.index then
    ({ st with log := st.log ++ [LogEntry.deleteEntry c.relPath c.digest] }, Outcome.delete)
  else
    match alook m c.digest with
    | none => (st, Outcome.unmapped)
    | some [] => ({ st with log := st.log ++ [LogEntry.errorEntry c.relPath] }, Outcome.errored)
    | some (first :: restNames) =>
      if conflictCheck && conflictAt st.store (storeKey first) c.digest then
        (quarantineCandidate c first st, Outcome.conflict)
      else
        (deployCandidate c first restNames st, Outcome.deployed)

/-- Process every candidate of a pass in order, returning the final state
and the candidates still on disk afterwards (unmapped ones stay in place;
deleted, deployed and quarantined ones are consumed). -/
def processAll (cc : Bool) (m : Mapping) : PassSt → List Candidate → PassSt × List Candidate
  | st, [] => (st, [])
  | st, c :: t =>
    let r1 := processFile cc m st c
    let r2 := processAll cc m r1.1 t
    if r1.2 = Outcome.unmapped ∨ r1.2 = Outcome.errored then (r2.1, c :: r2.2) else r2

/-- Translation of `collect_existing_sha1s`: hash every file under the
destination tree (quarantine subdirectory included) into digest to paths. -/
def buildIndex (store : Store) (conf : List QEntry) : Index :=
  (store ++ QFiles conf).foldl (fun idx p => indexAdd idx p.2 p.1) []

/-- One alias restoration of the reverification pass: copy the source file
to `dest_dir/<t>.png` unless that path already exists. -/
def restoreAlias (d : String) (s : Store) (t : String) : Store :=
  if (alook s (storeKey t)).isNone then storeInsert s (storeKey t) d else s

/-- Reverification step for one walked file: if its digest is in the table,
ensure every expected alias name exists. -/
def reverifyStep (m : Mapping) (s : Store) (f : String × String) : Store :=
  match alook m f.2 with
  | none => s
  | some ns => ns.foldl (restoreAlias f.2) s

/-- Translation of `reverification_pass` (lines 345-364): walk the snapshot
of the destination tree (quarantine included) and restore missing alias
copies into the store. -/
def reverify (m : Mapping) (store : Store) (conf : List QEntry) : Store :=
  (store ++ QFiles conf).foldl (reverifyStep m) store

/-- A run-level world: the destination tree, the quarantine, the candidate
files still outside the destination, and the combined log. -/
structure World where
  store : Store
  conflicted : List QEntry
  candidates : List Candidate
  log : List LogEntry
deriving DecidableEq

/-- Pass-start state: the destination tree as found on disk together with
the freshly scanned `existing_sha1s` index. -/
def initSt (w : World) : PassSt :=
  { store := w.store, conflicted := w.conflicted
    index := buildIndex w.store w.conflicted, log := w.log }

/-- Translation of `run_pass` (lines 740-779) restricted to its mutating
steps: rebuild the index, process every candidate, then run the
reverification pass.  The read-only report helpers only emit log text. -/
def runPass (cc : Bool) (m : Mapping) (w : World) : World :=
  let pr := processAll cc m (initSt w) w.candidates
  { store := reverify m pr.1.store pr.1.conflicted
    conflicted := pr.1.conflicted
    candidates := pr.2
    log := pr.1.log }

/-- The ordered pass sequence of `__main__`: each pass has its own evidence
table and conflict-checking flag and runs against the evolving world. -/
def runSequence (specs : List (Bool × Mapping)) (w : World) : World :=
  specs.foldl (fun w p => runPass p.1 p.2 w) w

/-- Well-formedness delivered by both table loaders: no digest is mapped to
an empty set of names (`setdefault(..., set()).add(name)` always adds). -/
abbrev MappingWF (m : Mapping) : Prop := ∀ p ∈ m, p.2 ≠ []

/-- Alias completeness in the sense the code can guarantee: every file of
the destination tree whose digest is in the table has every mapped alias
name present in the store. -/
def AliasComplete (m : Mapping) (store : Store) (conf : List QEntry) : Prop :=
  ∀ p ∈ store ++ QFiles conf, ∀ ns, alook m p.2 = some ns →
    ∀ t ∈ ns, (alook store (storeKey t)).isSome = true

/-- All candidates are unknown to a table. -/
def CandUnmapped (m : Mapping) (cs : List Candidate) : Prop :=
  ∀ c ∈ cs, alook m c.digest = none

/-- One CSV row of an evidence table, already split into the three columns
the loader reads. -/
structure Row where
  sha1 : String
  texName : String
  alphaLevels : String
deriving DecidableEq

/-- The fixed allow-list of `load_sha1_mapping` for alpha-level `[0]` rows. -/
def allowedAlphaZero : List String :=
  ["0076cd21", "00c1181b", "00f7f08f", "00f8f08f",
   "blk_msk_alp.bmp", "d_sky_hasira_alp.bmp", "fat_shues_ovl_alp_emap_mod1120.bmp",
   "magazine_tx_alp.bmp", "null_msk.bmp", "sky_n3_alp.bmp"]

/-- Digest field of a row as the loader normalises it. -/
def rowDigest (r : Row) : String := lowerStr (trimStr r.sha1)

/-- Name field of a row as the loader normalises it. -/
def rowName (r : Row) : String := trimStr r.texName

/-- Rows rejected by the degenerate-transparency filter (the empty-field
check runs first, so only rows with both fields non-empty reach it). -/
abbrev rejectedRow (r : Row) : Prop :=
  rowDigest r ≠ "" ∧ rowName r ≠ "" ∧
    trimStr r.alphaLevels = "[0]" ∧ lowerStr (rowName r) ∉ allowedAlphaZero

/-- Add a texture name to the set mapped to a digest:
`mapping.setdefault(sha1_val, set()).add(tex_name)`. -/
def mapAdd (m : Mapping) (d t : String) : Mapping :=
  match m with
  | [] => [(d, [t])]
  | (d1, ns) :: tl =>
      if d1 = d then (d1, if t ∈ ns then ns else ns ++ [t]) :: tl
      else (d1, ns) :: mapAdd tl d t

/-- One row of the `load_sha1_mapping` loop: the accumulator carries the
mapping under construction and the skipped alpha-zero rows (the pairs later
written to the log). -/
def loadStep (acc : Mapping × List (String × String)) (r : Row) :
    Mapping × List (String × String) :=
  if rowDigest r = "" ∨ rowName r = "" then acc
  else if trimStr r.alphaLevels = "[0]" ∧ lowerStr (rowName r) ∉ allowedAlphaZero then
    (acc.1, acc.2 ++ [(rowDigest r, rowName r)])
  else
    (mapAdd acc.1 (rowDigest r) (rowName r), acc.2)

/-- Translation of `load_sha1_mapping` (lines 72-106): returns the merged
mapping and the skipped rows that get appended to the log. -/
def loadSha1Mapping (rows : List Row) : Mapping × List (String × String) :=
  rows.foldl loadStep ([], [])

/-- The degenerate all-zero digest excluded by `load_pcsx2_sha1_list`. -/
def zeroSha1 : String := "0000000000000000000000000000000000000000"

/-- Translation of `load_pcsx2_sha1_list` (lines 122-130): collect the set
of known digests, dropping empty fields and the all-zero digest. -/
def loadPcsx2Sha1List (rows : List String) : List String :=
  rows.foldl
    (fun acc r =>
      let s := lowerStr (trimStr r)
      if s ≠ "" ∧ s ≠ zeroSha1 ∧ s ∉ acc then acc ++ [s] else acc)
    []

/-- Translation of the decision core of `verify_hash_presence` (lines
300-321): the store files whose digest is not in the known-digest set. -/
def verifyHashPresence (files : List (String × String)) (known : List String) :
    List (String × String) :=
  files.filter fun f => !known.contains f.2

/-! Basic facts about the association-list operations. -/

theorem alook_mem {β : Type} {l : List (String × β)} {k : String} {v : β}
    (h : alook l k = some v) : (k, v) ∈ l := by
  induction l with
  | nil => simp [alook] at h
  | cons p t ih =>
    obtain ⟨a, b⟩ := p
    rw [alook] at h
    split at h
    · rename_i heq
      injection h with h2
      subst heq
      subst h2
      exact List.mem_cons_self _ _
    · exact List.mem_cons_of_mem _ (ih h)

theorem alook_storeInsert_self (s : Store) (n d : String) :
    alook (storeInsert s n d) n = some d := by
  induction s with
  | nil => simp [storeInsert, alook]
  | cons p t ih =>
    obtain ⟨a, b⟩ := p
    rw [storeInsert]
    split
    · rename_i heq
      simp [alook]
    · rename_i hne
      rw [alook, if_neg hne]
      exact ih

theorem alook_storeInsert_ne (s : Store) {n x : String} (d : String) (h : n ≠ x) :
    alook (storeInsert s n d) x = alook s x := by
  induction s with
  | nil => simp [storeInsert, alook, h]
  | cons p t ih =>
    obtain ⟨a, b⟩ := p
    rw [storeInsert]
    split
    · rename_i heq
      subst heq
      simp [alook, h]
    · rw [alook, alook]
      split
      · rfl
      · exact ih

theorem alook_storeInsert_isSome (s : Store) (n d : String) {x : String}
    (h : (alook s x).isSome = true) :
    (alook (storeInsert s n d) x).isSome = true := by
  by_cases hx : n = x
  · subst hx
    rw [alook_storeInsert_self]
    rfl
  · rw [alook_storeInsert_ne s d hx]
    exact h

theorem mem_storeInsert {s : Store} {n d : String} {p : String × String}
    (h : p ∈ storeInsert s n d) : p ∈ s ∨ p = (n, d) := by
  induction s with
  | nil =>
    simp [storeInsert] at h
    exact Or.inr h
  | cons q t ih =>
    obtain ⟨a, b⟩ := q
    rw [storeInsert] at h
    split at h
    · rcases List.mem_cons.mp h with h1 | h1
      · exact Or.inr h1
      · exact Or.inl (List.mem_cons_of_mem _ h1)
    · rcases List.mem_cons.mp h with h1 | h1
      · exact Or.inl (h1 ▸ List.mem_cons_self _ _)
      · rcases ih h1 with h2 | h2
        · exact Or.inl (List.mem_cons_of_mem _ h2)
        · exact Or.inr h2

/-! The conflict-path search: the chosen disambiguator is the least free
positive index, so a quarantined file never lands on an existing one. -/

theorem le_findFreeIdx (q : List QEntry) (base : String) :
    ∀ fuel k, k ≤ findFreeIdx q base fuel k := by
  intro fuel
  induction fuel with
  | zero => intro k; simp [findFreeIdx]
  | succ f ih =>
    intro k
    rw [findFreeIdx]
    split
    · exact Nat.le_trans (Nat.le_succ k) (ih (k + 1))
    · exact Nat.le_refl k

theorem findFreeIdx_min (q : List QEntry) (base : String) :
    ∀ fuel k j, k ≤ j → j < findFreeIdx q base fuel k → qtaken q base j = true := by
  intro fuel
  induction fuel with
  | zero =>
    intro k j hk hj
    rw [findFreeIdx] at hj
    omega
  | succ f ih =>
    intro k j hk hj
    rw [findFreeIdx] at hj
    split at hj
    · rename_i htk
      rcases Nat.eq_or_lt_of_le hk with h1 | h1
      · exact h1 ▸ htk
      · exact ih (k + 1) j h1 hj
    · omega

theorem findFreeIdx_free (q : List QEntry) (base : String) :
    ∀ fuel k, qtaken q base (k + fuel) = false →
      qtaken q base (findFreeIdx q base fuel k) = false := by
  intro fuel
  induction fuel with
  | zero => intro k h; simpa [findFreeIdx] using h
  | succ f ih =>
    intro k h
    rw [findFreeIdx]
    split
    · have e : k + 1 + f = k + (f + 1) := by omega
      exact ih (k + 1) (by rw [e]; exact h)
    · rename_i htk
      exact Bool.eq_false_iff.mpr htk

theorem le_qsup {q : List QEntry} {e : QEntry} (h : e ∈ q) : e.idx ≤ qsup q := by
  induction q with
  | nil => cases h
  | cons a t ih =>
    rcases List.mem_cons.mp h with h1 | h1
    · subst h1
      exact Nat.le_max_left _ _
    · exact Nat.le_trans (ih h1) (Nat.le_max_right _ _)

theorem qtaken_of_gt_qsup (q : List QEntry) (base : String) {k : Nat}
    (h : qsup q < k) : qtaken q base k = false := by
  rw [qtaken, List.any_eq_false]
  intro e he
  have h1 := le_qsup he
  simp only [Bool.and_eq_true, beq_iff_eq, not_and]
  intro _
  omega

theorem conflictIndex_pos (q : List QEntry) (base : String) :
    1 ≤ conflictIndex q base :=
  le_findFreeIdx q base _ 1

theorem conflictIndex_free (q : List QEntry) (base : String) :
    qtaken q base (conflictIndex q base) = false := by
  refine findFreeIdx_free q base _ 1 ?_
  exact qtaken_of_gt_qsup q base (by omega)

theorem conflictIndex_min (q : List QEntry) (base : String) {j : Nat}
    (h1 : 1 ≤ j) (h2 : qtaken q base j = false) : conflictIndex q base ≤ j := by
  by_contra hcon
  have hlt : j < findFreeIdx q base (qsup q + 1) 1 := by
    rw [conflictIndex] at hcon
    omega
  have htk := findFreeIdx_min q base (qsup q + 1) 1 j h1 hlt
  rw [htk] at h2
  cases h2

theorem conflictIndex_nil (base : String) : conflictIndex [] base = 1 := rfl

/-! Branch equations of `process_file`. -/

theorem pf_delete_eq (cc : Bool) (m : Mapping) (st : PassSt) (c : Candidate)
    (h : ((alook st.index c.digest).isSome &&
      allMappedFilesPresent c.digest m st.index) = true) :
    processFile cc m st c =
      ({ st with log := st.log ++ [LogEntry.deleteEntry c.relPath c.digest] },
        Outcome.delete) := by
  rw [processFile, if_pos h]

theorem pf_unmapped_eq (cc : Bool) (m : Mapping) (st : PassSt) (c : Candidate)
    (h : alook m c.digest = none) :
    processFile cc m st c = (st, Outcome.unmapped) := by
  have hmap : allMappedFilesPresent c.digest m st.index = false := by
    rw [allMappedFilesPresent, h]
  rw [processFile]
  simp only [hmap, Bool.and_false, Bool.false_eq_true, if_false, h]

theorem pf_errored_eq (cc : Bool) (m : Mapping) (st : PassSt) (c : Candidate)
    (hdel : ((alook st.index c.digest).isSome &&
      allMappedFilesPresent c.digest m st.index) = false)
    (h : alook m c.digest = some []) :
    processFile cc m st c =
      ({ st with log := st.log ++ [LogEntry.errorEntry c.relPath] }, Outcome.errored) := by
  rw [processFile]
  simp only [hdel, Bool.false_eq_true, if_false, h]

theorem pf_conflict_eq (cc : Bool) (m : Mapping) (st : PassSt) (c : Candidate)
    {first : String} {rest : List String}
    (hdel : ((alook st.index c.digest).isSome &&
      allMappedFilesPresent c.digest m st.index) = false)
    (hm : alook m c.digest = some (first :: rest))
    (hcf : (cc && conflictAt st.store (storeKey first) c.digest) = true) :
    processFile cc m st c = (quarantineCandidate c first st, Outcome.conflict) := by
  rw [processFile]
  simp only [hdel, Bool.false_eq_true, if_false, hm, hcf, if_true]

theorem pf_deploy_eq (cc : Bool) (m : Mapping) (st : PassSt) (c : Candidate)
    {first : String} {rest : List String}
    (hdel : ((alook st.index c.digest).isSome &&
      allMappedFilesPresent c.digest m st.index) = false)
    (hm : alook m c.digest = some (first :: rest))
    (hcf : (cc && conflictAt st.store (storeKey first) c.digest) = false) :
    processFile cc m st c = (deployCandidate c first rest st, Outcome.deployed) := by
  rw [processFile]
  simp only [hdel, Bool.false_eq_true, if_false, hm, hcf]

theorem pf_snd_unmapped {cc : Bool} {m : Mapping} {st : PassSt} {c : Candidate}
    (h : (processFile cc m st c).2 = Outcome.unmapped) :
    alook m c.digest = none := by
  rcases hm : alook m c.digest with _ | ns
  · rfl
  · exfalso
    rcases hdel : ((alook st.index c.digest).isSome &&
        allMappedFilesPresent c.digest m st.index) with _ | _
    · cases ns with
      | nil => rw [pf_errored_eq cc m st c hdel hm] at h; cases h
      | cons first rest =>
        rcases hcf : (cc && conflictAt st.store (storeKey first) c.digest) with _ | _
        · rw [pf_deploy_eq cc m st c hdel hm hcf] at h; cases h
        · rw [pf_conflict_eq cc m st c hdel hm hcf] at h; cases h
    · rw [pf_delete_eq cc m st c hdel] at h; cases h

theorem pf_snd_errored {cc : Bool} {m : Mapping} {st : PassSt} {c : Candidate}
    (h : (processFile cc m st c).2 = Outcome.errored) :
    alook m c.digest = some [] := by
  rcases hm : alook m c.digest with _ | ns
  · rw [pf_unmapped_eq cc m st c hm] at h; cases h
  · rcases hdel : ((alook st.index c.digest).isSome &&
        allMappedFilesPresent c.digest m st.index) with _ | _
    · cases ns with
      | nil => rfl
      | cons first rest =>
        exfalso
        rcases hcf : (cc && conflictAt st.store (storeKey first) c.digest) with _ | _
        · rw [pf_deploy_eq cc m st c hdel hm hcf] at h; cases h
        · rw [pf_conflict_eq cc m st c hdel hm hcf] at h; cases h
    · rw [pf_delete_eq cc m st c hdel] at h; cases h

theorem pf_snd_ne_delete {cc : Bool} {m : Mapping} {st : PassSt} {c : Candidate}
    (hdel : ((alook st.index c.digest).isSome &&
      allMappedFilesPresent c.digest m st.index) = false) :
    (processFile cc m st c).2 ≠ Outcome.delete := by
  rcases hm : alook m c.digest with _ | ns
  · rw [pf_unmapped_eq cc m st c hm]; intro h; cases h
  · cases ns with
    | nil => rw [pf_errored_eq cc m st c hdel hm]; intro h; cases h
    | cons first rest =>
      rcases hcf : (cc && conflictAt st.store (storeKey first) c.digest) with _ | _
      · rw [pf_deploy_eq cc m st c hdel hm hcf]; intro h; cases h
      · rw [pf_conflict_eq cc m st c hdel hm hcf]; intro h; cases h

theorem pf_snd_delete_iff (cc : Bool) (m : Mapping) (st : PassSt) (c : Candidate) :
    (processFile cc m st c).2 = Outcome.delete ↔
      ((alook st.index c.digest).isSome = true ∧
        allMappedFilesPresent c.digest m st.index = true) := by
  constructor
  · intro h
    rcases hdel : ((alook st.index c.digest).isSome &&
        allMappedFilesPresent c.digest m st.index) with _ | _
    · exact absurd h (pf_snd_ne_delete hdel)
    · simp only [Bool.and_eq_true] at hdel
      exact hdel
  · intro h
    rw [pf_delete_eq cc m st c (by rw [h.1, h.2]; rfl)]

/-! Preservation facts about the deploy branch. -/

theorem copyOne_store_pres {a b c0 : String} {st : PassSt} {t : String} {x d : String}
    (h : alook st.store x = some d) : alook (copyOne a b c0 st t).store x = some d := by
  simp only [copyOne]
  split
  · rename_i habs
    by_cases hx : storeKey t = x
    · subst hx
      rw [h] at habs
      cases habs
    · rw [alook_storeInsert_ne _ _ hx]
      exact h
  · exact h

theorem copyFold_store_pres (a b c0 : String) (l : List String) :
    ∀ (st : PassSt) (x d : String), alook st.store x = some d →
      alook ((l.foldl (copyOne a b c0) st)).store x = some d := by
  induction l with
  | nil => intro st x d h; exact h
  | cons t tl ih => intro st x d h; exact ih _ _ _ (copyOne_store_pres h)

theorem copyOne_isSome {a b c0 : String} {st : PassSt} {t : String} {x : String}
    (h : (alook st.store x).isSome = true) :
    (alook (copyOne a b c0 st t).store x).isSome = true := by
  simp only [copyOne]
  split
  · exact alook_storeInsert_isSome _ _ _ h
  · exact h

theorem copyFold_isSome (a b c0 : String) (l : List String) :
    ∀ (st : PassSt) (x : String), (alook st.store x).isSome = true →
      (alook ((l.foldl (copyOne a b c0) st)).store x).isSome = true := by
  induction l with
  | nil => intro st x h; exact h
  | cons t tl ih => intro st x h; exact ih _ _ (copyOne_isSome h)

theorem copyOne_store_origin {a b c0 : String} {st : PassSt} {t : String}
    {p : String × String} (h : p ∈ (copyOne a b c0 st t).store) :
    p ∈ st.store ∨ p.2 = b := by
  simp only [copyOne] at h
  split at h
  · rcases mem_storeInsert h with h1 | h1
    · exact Or.inl h1
    · exact Or.inr (by rw [h1])
  · exact Or.inl h

theorem copyFold_store_origin (a b c0 : String) (l : List String) :
    ∀ (st : PassSt) (p : String × String), p ∈ ((l.foldl (copyOne a b c0) st)).store →
      p ∈ st.store ∨ p.2 = b := by
  induction l with
  | nil => intro st p h; exact Or.inl h
  | cons t tl ih =>
    intro st p h
    rcases ih _ _ h with h1 | h1
    · exact copyOne_store_origin h1
    · exact Or.inr h1

theorem copyOne_conflicted (a b c0 : String) (st : PassSt) (t : String) :
    (copyOne a b c0 st t).conflicted = st.conflicted := by
  simp only [copyOne]
  split <;> rfl

theorem copyFold_conflicted (a b c0 : String) (l : List String) :
    ∀ st : PassSt, ((l.foldl (copyOne a b c0) st)).conflicted = st.conflicted := by
  induction l with
  | nil => intro st; rfl
  | cons t tl ih => intro st; rw [List.foldl_cons, ih, copyOne_conflicted]

theorem copyOne_log_mem {a b c0 : String} {st : PassSt} {t : String} {e : LogEntry}
    (h : e ∈ st.log) : e ∈ (copyOne a b c0 st t).log := by
  simp only [copyOne]
  split
  · exact List.mem_append_left _ h
  · exact h

theorem copyFold_log_mem (a b c0 : String) (l : List String) :
    ∀ (st : PassSt) (e : LogEntry), e ∈ st.log → e ∈ ((l.foldl (copyOne a b c0) st)).log := by
  induction l with
  | nil => intro st e h; exact h
  | cons t tl ih => intro st e h; exact ih _ _ (copyOne_log_mem h)

theorem deployCandidate_store_pres {c : Candidate} {first : String} {rest : List String}
    {st : PassSt} {x d : String}
    (hnc : conflictAt st.store (storeKey first) c.digest = false)
    (h : alook st.store x = some d) :
    alook (deployCandidate c first rest st).store x = some d := by
  rw [deployCandidate]
  refine copyFold_store_pres _ _ _ _ _ _ _ ?_
  by_cases hx : storeKey first = x
  · subst hx
    rw [conflictAt, h] at hnc
    have : d = c.digest := by
      rcases bne_eq_false_iff_eq.mp hnc with h2
      exact h2
    rw [alook_storeInsert_self, this]
  · rw [alook_storeInsert_ne _ _ hx]
    exact h

theorem deployCandidate_store_pres_ne {c : Candidate} {first : String} {rest : List String}
    {st : PassSt} {x d : String} (hx : x ≠ storeKey first)
    (h : alook st.store x = some d) :
    alook (deployCandidate c first rest st).store x = some d := by
  rw [deployCandidate]
  refine copyFold_store_pres _ _ _ _ _ _ _ ?_
  rw [alook_storeInsert_ne _ _ (fun h2 => hx h2.symm)]
  exact h

theorem deployCandidate_isSome {c : Candidate} {first : String} {rest : List String}
    {st : PassSt} {x : String} (h : (alook st.store x).isSome = true) :
    (alook (deployCandidate c first rest st).store x).isSome = true := by
  rw [deployCandidate]
  exact copyFold_isSome _ _ _ _ _ _ (alook_storeInsert_isSome _ _ _ h)

theorem deployCandidate_store_origin {c : Candidate} {first : String} {rest : List String}
    {st : PassSt} {p : String × String} (h : p ∈ (deployCandidate c first rest st).store) :
    p ∈ st.store ∨ p.2 = c.digest := by
  rw [deployCandidate] at h
  rcases copyFold_store_origin _ _ _ _ _ _ h with h1 | h1
  · rcases mem_storeInsert h1 with h2 | h2
    · exact Or.inl h2
    · exact Or.inr (by rw [h2])
  · exact Or.inr h1

theorem deployCandidate_conflicted (c : Candidate) (first : String) (rest : List String)
    (st : PassSt) : (deployCandidate c first rest st).conflicted = st.conflicted := by
  rw [deployCandidate, copyFold_conflicted]

theorem quarantineCandidate_store (c : Candidate) (first : String) (st : PassSt) :
    (quarantineCandidate c first st).store = st.store := rfl

theorem quarantineCandidate_index (c : Candidate) (first : String) (st : PassSt) :
    (quarantineCandidate c first st).index = st.index := rfl

/-! Facts about the reverification pass. -/

theorem restoreAlias_isSome {d : String} {s : Store} {t x : String}
    (h : (alook s x).isSome = true) : (alook (restoreAlias d s t) x).isSome = true := by
  rw [restoreAlias]
  split
  · exact alook_storeInsert_isSome _ _ _ h
  · exact h

theorem restoreAlias_self (d : String) (s : Store) (t : String) :
    (alook (restoreAlias d s t) (storeKey t)).isSome = true := by
  rw [restoreAlias]
  split
  · rw [alook_storeInsert_self]
    rfl
  · rename_i h
    rcases hx : alook s (storeKey t) with _ | v
    · rw [hx] at h
      simp at h
    · rfl

theorem restoreAlias_id {d : String} {s : Store} {t : String}
    (h : (alook s (storeKey t)).isSome = true) : restoreAlias d s t = s := by
  rw [restoreAlias, if_neg]
  intro h2
  rcases hx : alook s (storeKey t) with _ | v
  · rw [hx] at h
    cases h
  · rw [hx] at h2
    cases h2

theorem restoreAlias_mem {d : String} {s : Store} {t : String} {p : String × String}
    (h : p ∈ restoreAlias d s t) : p ∈ s ∨ p.2 = d := by
  rw [restoreAlias] at h
  split at h
  · rcases mem_storeInsert h with h1 | h1
    · exact Or.inl h1
    · exact Or.inr (by rw [h1])
  · exact Or.inl h

theorem restoreFold_isSome (d : String) (ns : List String) :
    ∀ (s : Store) (x : String), (alook s x).isSome = true →
      (alook (ns.foldl (restoreAlias d) s) x).isSome = true := by
  induction ns with
  | nil => intro s x h; exact h
  | cons t tl ih => intro s x h; exact ih _ _ (restoreAlias_isSome h)

theorem restoreFold_present (d : String) (ns : List String) :
    ∀ (s : Store) (t : String), t ∈ ns →
      (alook (ns.foldl (restoreAlias d) s) (storeKey t)).isSome = true := by
  induction ns with
  | nil => intro s t h; cases h
  | cons a tl ih =>
    intro s t h
    rcases List.mem_cons.mp h with h1 | h1
    · subst h1
      rw [List.foldl_cons]
      exact restoreFold_isSome _ tl _ _ (restoreAlias_self d s t)
    · rw [List.foldl_cons]
      exact ih _ _ h1

theorem restoreFold_id (d : String) (ns : List String) :
    ∀ s : Store, (∀ t ∈ ns, (alook s (storeKey t)).isSome = true) →
      ns.foldl (restoreAlias d) s = s := by
  induction ns with
  | nil => intro s _; rfl
  | cons a tl ih =>
    intro s h
    rw [List.foldl_cons, restoreAlias_id (h a (List.mem_cons_self _ _))]
    exact ih _ (fun t ht => h t (List.mem_cons_of_mem _ ht))

theorem restoreFold_mem (d : String) (ns : List String) :
    ∀ (s : Store) (p : String × String), p ∈ ns.foldl (restoreAlias d) s →
      p ∈ s ∨ p.2 = d := by
  induction ns with
  | nil => intro s p h; exact Or.inl h
  | cons a tl ih =>
    intro s p h
    rcases ih _ _ h with h1 | h1
    · exact restoreAlias_mem h1
    · exact Or.inr h1

theorem rstep_isSome {m : Mapping} {s : Store} {f : String × String} {x : String}
    (h : (alook s x).isSome = true) : (alook (reverifyStep m s f) x).isSome = true := by
  rw [reverifyStep]
  rcases hm : alook m f.2 with _ | ns
  · exact h
  · exact restoreFold_isSome _ _ _ _ h

theorem rstep_present {m : Mapping} {s : Store} {f : String × String} {ns : List String}
    (hm : alook m f.2 = some ns) {t : String} (ht : t ∈ ns) :
    (alook (reverifyStep m s f) (storeKey t)).isSome = true := by
  rw [reverifyStep, hm]
  exact restoreFold_present _ _ _ _ ht

theorem rstep_id {m : Mapping} {s : Store} {f : String × String}
    (h : ∀ ns, alook m f.2 = some ns → ∀ t ∈ ns, (alook s (storeKey t)).isSome = true) :
    reverifyStep m s f = s := by
  rw [reverifyStep]
  rcases hm : alook m f.2 with _ | ns
  · rfl
  · exact restoreFold_id _ _ _ (h ns hm)

theorem rstep_mem {m : Mapping} {s : Store} {f : String × String} {p : String × String}
    (h : p ∈ reverifyStep m s f) : p ∈ s ∨ p.2 = f.2 := by
  rw [reverifyStep] at h
  rcases hm : alook m f.2 with _ | ns
  · rw [hm] at h
    exact Or.inl h
  · rw [hm] at h
    exact restoreFold_mem _ _ _ _ h

theorem rfold_isSome (m : Mapping) (l : List (String × String)) :
    ∀ (s : Store) (x : String), (alook s x).isSome = true →
      (alook (l.foldl (reverifyStep m) s) x).isSome = true := by
  induction l with
  | nil => intro s x h; exact h
  | cons f tl ih => intro s x h; exact ih _ _ (rstep_isSome h)

theorem rfold_present (m : Mapping) (l : List (String × String)) :
    ∀ (s : Store) (f : String × String), f ∈ l → ∀ ns, alook m f.2 = some ns →
      ∀ t ∈ ns, (alook (l.foldl (reverifyStep m) s) (storeKey t)).isSome = true := by
  induction l with
  | nil => intro s f h; cases h
  | cons a tl ih =>
    intro s f h ns hns t ht
    rcases List.mem_cons.mp h with h1 | h1
    · subst h1
      rw [List.foldl_cons]
      exact rfold_isSome _ tl _ _ (rstep_present hns ht)
    · rw [List.foldl_cons]
      exact ih _ _ h1 ns hns t ht

theorem rfold_id (m : Mapping) (l : List (String × String)) :
    ∀ s : Store, (∀ f ∈ l, reverifyStep m s f = s) →
      l.foldl (reverifyStep m) s = s := by
  induction l with
  | nil => intro s _; rfl
  | cons a tl ih =>
    intro s h
    rw [List.foldl_cons, h a (List.mem_cons_self _ _)]
    exact ih _ (fun f hf => h f (List.mem_cons_of_mem _ hf))

theorem rfold_mem (m : Mapping) (l : List (String × String)) :
    ∀ (s : Store) (p : String × String), p ∈ l.foldl (reverifyStep m) s →
      p ∈ s ∨ ∃ f ∈ l, p.2 = f.2 := by
  induction l with
  | nil => intro s p h; exact Or.inl h
  | cons a tl ih =>
    intro s p h
    rcases ih _ _ h with h1 | ⟨f, hf, hfd⟩
    · rcases rstep_mem h1 with h2 | h2
      · exact Or.inl h2
      · exact Or.inr ⟨a, List.mem_cons_self _ _, h2⟩
    · exact Or.inr ⟨f, List.mem_cons_of_mem _ hf, hfd⟩

theorem reverify_isSome {m : Mapping} {store : Store} {conf : List QEntry} {x : String}
    (h : (alook store x).isSome = true) :
    (alook (reverify m store conf) x).isSome = true := by
  rw [reverify]
  exact rfold_isSome _ _ _ _ h

theorem reverify_mem {m : Mapping} {store : Store} {conf : List QEntry}
    {p : String × String} (h : p ∈ reverify m store conf) :
    p ∈ store ∨ ∃ f ∈ store ++ QFiles conf, p.2 = f.2 := by
  rw [reverify] at h
  exact rfold_mem _ _ _ _ h

/-- Core guarantee of the reverification pass: afterwards, every file of the
destination tree whose digest is in the table has every mapped alias name
present in the store (presence of the name, nothing about its digest). -/
theorem reverify_complete (m : Mapping) (store : Store) (conf : List QEntry) :
    ∀ p ∈ reverify m store conf ++ QFiles conf, ∀ ns, alook m p.2 = some ns →
      ∀ t ∈ ns, (alook (reverify m store conf) (storeKey t)).isSome = true := by
  intro p hp ns hns t ht
  rcases List.mem_append.mp hp with hp1 | hp1
  · rcases reverify_mem hp1 with h1 | ⟨f, hf, hfd⟩
    · rw [reverify]
      exact rfold_present _ _ _ _ (List.mem_append_left _ h1) ns hns t ht
    · rw [reverify]
      rw [hfd] at hns
      exact rfold_present _ _ _ _ hf ns hns t ht
  · rw [reverify]
    exact rfold_present _ _ _ _ (List.mem_append_right _ hp1) ns hns t ht

theorem reverify_id_of_complete {m : Mapping} {store : Store} {conf : List QEntry}
    (h : AliasComplete m store conf) : reverify m store conf = store := by
  rw [reverify]
  exact rfold_id _ _ _ (fun f hf => rstep_id (fun ns hns t ht => h f hf ns hns t ht))

/-! Origin and preservation facts for a whole `process_file` call. -/

theorem pf_store_origin {cc : Bool} {m : Mapping} {st : PassSt} {c : Candidate}
    {p : String × String} (h : p ∈ (processFile cc m st c).1.store) :
    p ∈ st.store ∨ p.2 = c.digest := by
  cases hdel : ((alook st.index c.digest).isSome &&
      allMappedFilesPresent c.digest m st.index) with
  | true =>
    rw [pf_delete_eq cc m st c hdel] at h
    exact Or.inl h
  | false =>
    rcases hm : alook m c.digest with _ | ns
    · rw [pf_unmapped_eq cc m st c hm] at h
      exact Or.inl h
    · cases ns with
      | nil =>
        rw [pf_errored_eq cc m st c hdel hm] at h
        exact Or.inl h
      | cons first rest =>
        cases hcf : (cc && conflictAt st.store (storeKey first) c.digest) with
        | true =>
          rw [pf_conflict_eq cc m st c hdel hm hcf] at h
          exact Or.inl h
        | false =>
          rw [pf_deploy_eq cc m st c hdel hm hcf] at h
          exact deployCandidate_store_origin h

theorem pf_conflicted_origin {cc : Bool} {m : Mapping} {st : PassSt} {c : Candidate}
    {q : QEntry} (h : q ∈ (processFile cc m st c).1.conflicted) :
    q ∈ st.conflicted ∨ q.digest = c.digest := by
  cases hdel : ((alook st.index c.digest).isSome &&
      allMappedFilesPresent c.digest m st.index) with
  | true =>
    rw [pf_delete_eq cc m st c hdel] at h
    exact Or.inl h
  | false =>
    rcases hm : alook m c.digest with _ | ns
    · rw [pf_unmapped_eq cc m st c hm] at h
      exact Or.inl h
    · cases ns with
      | nil =>
        rw [pf_errored_eq cc m st c hdel hm] at h
        exact Or.inl h
      | cons first rest =>
        cases hcf : (cc && conflictAt st.store (storeKey first) c.digest) with
        | true =>
          rw [pf_conflict_eq cc m st c hdel hm hcf] at h
          rcases List.mem_cons.mp h with h1 | h1
          · exact Or.inr (by rw [h1])
          · exact Or.inl h1
        | false =>
          rw [pf_deploy_eq cc m st c hdel hm hcf] at h
          rw [deployCandidate_conflicted] at h
          exact Or.inl h

theorem pf_isSome {cc : Bool} {m : Mapping} {st : PassSt} {c : Candidate} {x : String}
    (h : (alook st.store x).isSome = true) :
    (alook (processFile cc m st c).1.store x).isSome = true := by
  cases hdel : ((alook st.index c.digest).isSome &&
      allMappedFilesPresent c.digest m st.index) with
  | true =>
    rw [pf_delete_eq cc m st c hdel]
    exact h
  | false =>
    rcases hm : alook m c.digest with _ | ns
    · rw [pf_unmapped_eq cc m st c hm]
      exact h
    · cases ns with
      | nil =>
        rw [pf_errored_eq cc m st c hdel hm]
        exact h
      | cons first rest =>
        cases hcf : (cc && conflictAt st.store (storeKey first) c.digest) with
        | true =>
          rw [pf_conflict_eq cc m st c hdel hm hcf]
          exact h
        | false =>
          rw [pf_deploy_eq cc m st c hdel hm hcf]
          exact deployCandidate_isSome h

/-! Structure of `processAll` and its invariants. -/

theorem pa_fst (cc : Bool) (m : Mapping) (st : PassSt) (c : Candidate)
    (t : List Candidate) :
    (processAll cc m st (c :: t)).1 = (processAll cc m (processFile cc m st c).1 t).1 := by
  simp only [processAll]
  split <;> rfl

theorem pa_snd (cc : Bool) (m : Mapping) (st : PassSt) (c : Candidate)
    (t : List Candidate) :
    (processAll cc m st (c :: t)).2 =
      if (processFile cc m st c).2 = Outcome.unmapped ∨
          (processFile cc m st c).2 = Outcome.errored
      then c :: (processAll cc m (processFile cc m st c).1 t).2
      else (processAll cc m (processFile cc m st c).1 t).2 := by
  simp only [processAll]
  split <;> rfl

theorem pa_sub (cc : Bool) (m : Mapping) :
    ∀ (cs : List Candidate) (st : PassSt) (c0 : Candidate),
      c0 ∈ (processAll cc m st cs).2 → c0 ∈ cs := by
  intro cs
  induction cs with
  | nil => intro st c0 h; cases h
  | cons c t ih =>
    intro st c0 h
    rw [pa_snd] at h
    split at h
    · rcases List.mem_cons.mp h with h1 | h1
      · exact h1 ▸ List.mem_cons_self _ _
      · exact List.mem_cons_of_mem _ (ih _ _ h1)
    · exact List.mem_cons_of_mem _ (ih _ _ h)

theorem pa_survivor_unmapped (cc : Bool) (m : Mapping) (hwf : MappingWF m) :
    ∀ (cs : List Candidate) (st : PassSt) (c0 : Candidate),
      c0 ∈ (processAll cc m st cs).2 → alook m c0.digest = none := by
  intro cs
  induction cs with
  | nil => intro st c0 h; cases h
  | cons c t ih =>
    intro st c0 h
    rw [pa_snd] at h
    split at h
    · rename_i hoc
      rcases List.mem_cons.mp h with h1 | h1
      · subst h1
        rcases hoc with h2 | h2
        · exact pf_snd_unmapped h2
        · exact absurd rfl (hwf _ (alook_mem (pf_snd_errored h2)))
      · exact ih _ _ h1
    · exact ih _ _ h

theorem pa_id_of_unmapped (cc : Bool) (m : Mapping) :
    ∀ (cs : List Candidate) (st : PassSt), CandUnmapped m cs →
      processAll cc m st cs = (st, cs) := by
  intro cs
  induction cs with
  | nil => intro st _; rfl
  | cons c t ih =>
    intro st h
    have h1 : alook m c.digest = none := h c (List.mem_cons_self _ _)
    have he := pf_unmapped_eq cc m st c h1
    simp only [processAll, he]
    rw [ih st (fun x hx => h x (List.mem_cons_of_mem _ hx))]
    simp

theorem pa_store_origin (cc : Bool) (m : Mapping) :
    ∀ (cs : List Candidate) (st : PassSt) (p : String × String),
      p ∈ (processAll cc m st cs).1.store →
      p ∈ st.store ∨ ∃ c ∈ cs, p.2 = c.digest := by
  intro cs
  induction cs with
  | nil => intro st p h; exact Or.inl h
  | cons c t ih =>
    intro st p h
    rw [pa_fst] at h
    rcases ih _ _ h with h1 | ⟨c1, hc1, hd⟩
    · rcases pf_store_origin h1 with h2 | h2
      · exact Or.inl h2
      · exact Or.inr ⟨c, List.mem_cons_self _ _, h2⟩
    · exact Or.inr ⟨c1, List.mem_cons_of_mem _ hc1, hd⟩

theorem pa_conflicted_origin (cc : Bool) (m : Mapping) :
    ∀ (cs : List Candidate) (st : PassSt) (q : QEntry),
      q ∈ (processAll cc m st cs).1.conflicted →
      q ∈ st.conflicted ∨ ∃ c ∈ cs, q.digest = c.digest := by
  intro cs
  induction cs with
  | nil => intro st q h; exact Or.inl h
  | cons c t ih =>
    intro st q h
    rw [pa_fst] at h
    rcases ih _ _ h with h1 | ⟨c1, hc1, hd⟩
    · rcases pf_conflicted_origin h1 with h2 | h2
      · exact Or.inl h2
      · exact Or.inr ⟨c, List.mem_cons_self _ _, h2⟩
    · exact Or.inr ⟨c1, List.mem_cons_of_mem _ hc1, hd⟩

theorem pa_isSome (cc : Bool) (m : Mapping) :
    ∀ (cs : List Candidate) (st : PassSt) (x : String),
      (alook st.store x).isSome = true →
      (alook (processAll cc m st cs).1.store x).isSome = true := by
  intro cs
  induction cs with
  | nil => intro st x h; exact h
  | cons c t ih =>
    intro st x h
    rw [pa_fst]
    exact ih _ _ (pf_isSome h)

/-! Field views of `runPass` and the convergence argument. -/

theorem runPass_store (cc : Bool) (m : Mapping) (w : World) :
    (runPass cc m w).store =
      reverify m (processAll cc m (initSt w) w.candidates).1.store
        (processAll cc m (initSt w) w.candidates).1.conflicted := rfl

theorem runPass_conflicted (cc : Bool) (m : Mapping) (w : World) :
    (runPass cc m w).conflicted = (processAll cc m (initSt w) w.candidates).1.conflicted := rfl

theorem runPass_candidates (cc : Bool) (m : Mapping) (w : World) :
    (runPass cc m w).candidates = (processAll cc m (initSt w) w.candidates).2 := rfl

theorem runPass_alias_complete (cc : Bool) (m : Mapping) (w : World) :
    AliasComplete m (runPass cc m w).store (runPass cc m w).conflicted := by
  rw [AliasComplete, runPass_store, runPass_conflicted]
  exact reverify_complete m _ _

theorem runPass_cand_unmapped (cc : Bool) (m : Mapping) (w : World) (hwf : MappingWF m) :
    CandUnmapped m (runPass cc m w).candidates := by
  intro c hc
  rw [runPass_candidates] at hc
  exact pa_survivor_unmapped cc m hwf _ _ _ hc

theorem runPass_id {cc : Bool} {m : Mapping} {w : World}
    (hA : AliasComplete m w.store w.conflicted) (hC : CandUnmapped m w.candidates) :
    runPass cc m w = w := by
  obtain ⟨s, cf, cs, lg⟩ := w
  have hpa := pa_id_of_unmapped cc m cs (initSt ⟨s, cf, cs, lg⟩) hC
  rw [runPass, hpa]
  show ({ store := reverify m s cf, conflicted := cf, candidates := cs, log := lg } : World)
      = ⟨s, cf, cs, lg⟩
  rw [reverify_id_of_complete hA]

theorem runPass_preserves_complete {m : Mapping} {w : World}
    (hA : AliasComplete m w.store w.conflicted) (hC : CandUnmapped m w.candidates)
    (cc : Bool) (m2 : Mapping) :
    AliasComplete m (runPass cc m2 w).store (runPass cc m2 w).conflicted := by
  intro p hp ns hns t ht
  have hkeep : ∀ x, (alook w.store x).isSome = true →
      (alook (runPass cc m2 w).store x).isSome = true := by
    intro x hx
    rw [runPass_store]
    exact reverify_isSome (pa_isSome cc m2 _ _ _ hx)
  have hdig : (∃ p0 ∈ w.store ++ QFiles w.conflicted, p.2 = p0.2) ∨
      ∃ c ∈ w.candidates, p.2 = c.digest := by
    rcases List.mem_append.mp hp with hp1 | hp1
    · rw [runPass_store] at hp1
      rcases reverify_mem hp1 with h1 | ⟨f, hf, hfd⟩
      · rcases pa_store_origin cc m2 _ _ _ h1 with h2 | ⟨c, hc, hd⟩
        · exact Or.inl ⟨p, List.mem_append_left _ h2, rfl⟩
        · exact Or.inr ⟨c, hc, hd⟩
      · rcases List.mem_append.mp hf with hf1 | hf1
        · rcases pa_store_origin cc m2 _ _ _ hf1 with h2 | ⟨c, hc, hd⟩
          · exact Or.inl ⟨f, List.mem_append_left _ h2, hfd⟩
          · exact Or.inr ⟨c, hc, hfd.trans hd⟩
        · obtain ⟨q, hq, rfl⟩ := List.mem_map.mp hf1
          rcases pa_conflicted_origin cc m2 _ _ _ hq with h2 | ⟨c, hc, hd⟩
          · exact Or.inl ⟨(qName q, q.digest),
              List.mem_append_right _ (List.mem_map_of_mem _ h2), hfd⟩
          · exact Or.inr ⟨c, hc, by rw [hfd]; exact hd⟩
    · rw [runPass_conflicted] at hp1
      obtain ⟨q, hq, rfl⟩ := List.mem_map.mp hp1
      rcases pa_conflicted_origin cc m2 _ _ _ hq with h2 | ⟨c, hc, hd⟩
      · exact Or.inl ⟨(qName q, q.digest),
          List.mem_append_right _ (List.mem_map_of_mem _ h2), rfl⟩
      · exact Or.inr ⟨c, hc, hd⟩
  rcases hdig with ⟨p0, hp0, he⟩ | ⟨c, hc, he⟩
  · rw [he] at hns
    exact hkeep _ (hA p0 hp0 ns hns t ht)
  · rw [he, hC c hc] at hns
    cases hns

theorem runPass_preserves_unmapped {m : Mapping} {w : World}
    (hC : CandUnmapped m w.candidates) (cc : Bool) (m2 : Mapping) :
    CandUnmapped m (runPass cc m2 w).candidates := by
  intro c hc
  rw [runPass_candidates] at hc
  exact hC c (pa_sub cc m2 _ _ _ hc)

theorem runSequence_cons (p : Bool × Mapping) (specs : List (Bool × Mapping)) (w : World) :
    runSequence (p :: specs) w = runSequence specs (runPass p.1 p.2 w) := rfl

theorem runSequence_preserves {m : Mapping} (specs : List (Bool × Mapping)) :
    ∀ w : World, AliasComplete m w.store w.conflicted → CandUnmapped m w.candidates →
      AliasComplete m (runSequence specs w).store (runSequence specs w).conflicted ∧
      CandUnmapped m (runSequence specs w).candidates := by
  induction specs with
  | nil => intro w h1 h2; exact ⟨h1, h2⟩
  | cons p rest ih =>
    intro w h1 h2
    rw [runSequence_cons]
    exact ih _ (runPass_preserves_complete h1 h2 p.1 p.2)
      (runPass_preserves_unmapped h2 p.1 p.2)

theorem runSequence_stable (specs : List (Bool × Mapping))
    (hwf : ∀ p ∈ specs, MappingWF p.2) :
    ∀ (w : World) (p : Bool × Mapping), p ∈ specs →
      AliasComplete p.2 (runSequence specs w).store (runSequence specs w).conflicted ∧
      CandUnmapped p.2 (runSequence specs w).candidates := by
  induction specs with
  | nil => intro w p hp; cases hp
  | cons q rest ih =>
    intro w p hp
    rw [runSequence_cons]
    rcases List.mem_cons.mp hp with h1 | h1
    · subst h1
      exact runSequence_preserves rest _ (runPass_alias_complete p.1 p.2 w)
        (runPass_cand_unmapped p.1 p.2 w (hwf p (List.mem_cons_self _ _)))
    · exact ih (fun r hr => hwf r (List.mem_cons_of_mem _ hr)) _ p h1

theorem runSequence_id (specs : List (Bool × Mapping)) :
    ∀ w : World,
      (∀ p ∈ specs, AliasComplete p.2 w.store w.conflicted ∧ CandUnmapped p.2 w.candidates) →
      runSequence specs w = w := by
  induction specs with
  | nil => intro w _; rfl
  | cons q rest ih =>
    intro w h
    rw [runSequence_cons]
    have hq := h q (List.mem_cons_self _ _)
    rw [runPass_id hq.1 hq.2]
    exact ih w (fun p hp => h p (List.mem_cons_of_mem _ hp))

/-! Facts about the evidence-table loaders. -/

theorem loadStep_rejected (acc : Mapping × List (String × String)) (r : Row)
    (h : rejectedRow r) :
    loadStep acc r = (acc.1, acc.2 ++ [(rowDigest r, rowName r)]) := by
  obtain ⟨h1, h2, h3, h4⟩ := h
  rw [loadStep, if_neg (not_or.mpr ⟨h1, h2⟩), if_pos ⟨h3, h4⟩]

theorem loadStep_merged (acc : Mapping × List (String × String)) (r : Row)
    (h1 : rowDigest r ≠ "") (h2 : rowName r ≠ "") (h3 : ¬rejectedRow r) :
    loadStep acc r = (mapAdd acc.1 (rowDigest r) (rowName r), acc.2) := by
  rw [loadStep, if_neg (not_or.mpr ⟨h1, h2⟩), if_neg]
  intro hcon
  exact h3 ⟨h1, h2, hcon.1, hcon.2⟩

theorem loadStep_skipped_mono {acc : Mapping × List (String × String)} {r : Row}
    {p : String × String} (h : p ∈ acc.2) : p ∈ (loadStep acc r).2 := by
  rw [loadStep]
  split
  · exact h
  · split
    · exact List.mem_append_left _ h
    · exact h

theorem loadFold_skipped_mono (rows : List Row) :
    ∀ (acc : Mapping × List (String × String)) (p : String × String),
      p ∈ acc.2 → p ∈ (rows.foldl loadStep acc).2 := by
  induction rows with
  | nil => intro acc p h; exact h
  | cons a t ih =>
    intro acc p h
    rw [List.foldl_cons]
    exact ih _ _ (loadStep_skipped_mono h)

theorem load_skipped_of_rejected (rows : List Row) :
    ∀ (acc : Mapping × List (String × String)) (r : Row), r ∈ rows → rejectedRow r →
      (rowDigest r, rowName r) ∈ (rows.foldl loadStep acc).2 := by
  induction rows with
  | nil => intro acc r h; cases h
  | cons a t ih =>
    intro acc r hr hrej
    rcases List.mem_cons.mp hr with h1 | h1
    · subst h1
      rw [List.foldl_cons]
      apply loadFold_skipped_mono
      rw [loadStep_rejected _ _ hrej]
      exact List.mem_append_right _ (List.mem_singleton.mpr rfl)
    · rw [List.foldl_cons]
      exact ih _ _ h1 hrej

theorem mapAdd_mem_self (mp : Mapping) (d t : String) :
    t ∈ (alook (mapAdd mp d t) d).getD [] := by
  induction mp with
  | nil => simp [mapAdd, alook]
  | cons p tl ih =>
    obtain ⟨d1, ns⟩ := p
    rw [mapAdd]
    split
    · rename_i he
      subst he
      rw [alook, if_pos rfl]
      simp only [Option.getD_some]
      split
      · assumption
      · exact List.mem_append_right _ (List.mem_singleton.mpr rfl)
    · rename_i he
      rw [alook, if_neg he]
      exact ih

theorem mapAdd_mem_mono (mp : Mapping) (d t : String) {d2 t2 : String}
    (h : t2 ∈ (alook mp d2).getD []) :
    t2 ∈ (alook (mapAdd mp d t) d2).getD [] := by
  induction mp with
  | nil => simp [alook] at h
  | cons p tl ih =>
    obtain ⟨d1, ns⟩ := p
    rw [mapAdd]
    split
    · rename_i he
      by_cases he2 : d1 = d2
      · rw [alook, if_pos he2] at h
        rw [alook, if_pos he2]
        simp only [Option.getD_some] at h ⊢
        split
        · exact h
        · exact List.mem_append_left _ h
      · rw [alook, if_neg he2] at h
        rw [alook, if_neg he2]
        exact h
    · rename_i he
      by_cases he2 : d1 = d2
      · rw [alook, if_pos he2] at h
        rw [alook, if_pos he2]
        exact h
      · rw [alook, if_neg he2] at h
        rw [alook, if_neg he2]
        exact ih h

theorem mapAdd_wf : ∀ mp : Mapping, MappingWF mp → ∀ d t : String,
    MappingWF (mapAdd mp d t) := by
  intro mp
  induction mp with
  | nil =>
    intro _ d t p hp
    rw [mapAdd] at hp
    rcases List.mem_cons.mp hp with h1 | h1
    · rw [h1]
      simp
    · cases h1
  | cons q tl ih =>
    intro h d t p hp
    obtain ⟨d1, ns⟩ := q
    rw [mapAdd] at hp
    split at hp
    · rcases List.mem_cons.mp hp with h1 | h1
      · rw [h1]
        split
        · rename_i hmem
          exact List.ne_nil_of_mem hmem
        · simp
      · exact h _ (List.mem_cons_of_mem _ h1)
    · rcases List.mem_cons.mp hp with h1 | h1
      · rw [h1]
        exact h _ (List.mem_cons_self _ _)
      · exact ih (fun r hr => h r (List.mem_cons_of_mem _ hr)) d t _ h1

theorem loadStep_wf (acc : Mapping × List (String × String)) (r : Row)
    (h : MappingWF acc.1) : MappingWF (loadStep acc r).1 := by
  rw [loadStep]
  split
  · exact h
  · split
    · exact h
    · exact mapAdd_wf _ h _ _

theorem loadFold_wf (rows : List Row) :
    ∀ acc : Mapping × List (String × String), MappingWF acc.1 →
      MappingWF (rows.foldl loadStep acc).1 := by
  induction rows with
  | nil => intro acc h; exact h
  | cons a t ih =>
    intro acc h
    rw [List.foldl_cons]
    exact ih _ (loadStep_wf acc a h)

/-- Both loaders produce well-formed tables: every digest maps to a
non-empty name set. -/
theorem loadSha1Mapping_wf (rows : List Row) : MappingWF (loadSha1Mapping rows).1 := by
  rw [loadSha1Mapping]
  exact loadFold_wf rows ([], []) (fun p hp => absurd hp (List.not_mem_nil p))

/-! The known-digest ledger never contains the all-zero digest. -/

theorem loadPcsx2_aux (rows : List String) :
    ∀ acc : List String, zeroSha1 ∉ acc →
      zeroSha1 ∉ rows.foldl
        (fun acc r =>
          let s := lowerStr (trimStr r)
          if s ≠ "" ∧ s ≠ zeroSha1 ∧ s ∉ acc then acc ++ [s] else acc)
        acc := by
  induction rows with
  | nil => intro acc h; exact h
  | cons r t ih =>
    intro acc h
    rw [List.foldl_cons]
    apply ih
    dsimp only
    split
    · rename_i hc
      intro hmem
      rcases List.mem_append.mp hmem with h1 | h1
      · exact h h1
      · rw [List.mem_singleton] at h1
        exact hc.2.1 h1.symm
    · exact h

theorem loadPcsx2_no_zero (rows : List String) : zeroSha1 ∉ loadPcsx2Sha1List rows := by
  rw [loadPcsx2Sha1List]
  exact loadPcsx2_aux rows [] (List.not_mem_nil _)

theorem verifyHash_mem {files : List (String × String)} {known : List String}
    {f : String × String} (hf : f ∈ files) (hk : f.2 ∉ known) :
    f ∈ verifyHashPresence files known := by
  rw [verifyHashPresence]
  refine List.mem_filter.mpr ⟨hf, ?_⟩
  simpa using hk

/-! Branch inversion for `process_file` outcomes. -/

theorem pf_conflict_inversion {cc : Bool} {m : Mapping} {st : PassSt} {c : Candidate}
    {first : String} {rest : List String}
    (hm : alook m c.digest = some (first :: rest))
    (h : (processFile cc m st c).2 = Outcome.conflict) :
    ((alook st.index c.digest).isSome &&
        allMappedFilesPresent c.digest m st.index) = false ∧
      (cc && conflictAt st.store (storeKey first) c.digest) = true := by
  cases hdel : ((alook st.index c.digest).isSome &&
      allMappedFilesPresent c.digest m st.index) with
  | true => rw [pf_delete_eq cc m st c hdel] at h; cases h
  | false =>
    cases hcf : (cc && conflictAt st.store (storeKey first) c.digest) with
    | false => rw [pf_deploy_eq cc m st c hdel hm hcf] at h; cases h
    | true => exact ⟨rfl, rfl⟩

theorem pf_deployed_inversion {cc : Bool} {m : Mapping} {st : PassSt} {c : Candidate}
    {first : String} {rest : List String}
    (hm : alook m c.digest = some (first :: rest))
    (h : (processFile cc m st c).2 = Outcome.deployed) :
    ((alook st.index c.digest).isSome &&
        allMappedFilesPresent c.digest m st.index) = false ∧
      (cc && conflictAt st.store (storeKey first) c.digest) = false := by
  cases hdel : ((alook st.index c.digest).isSome &&
      allMappedFilesPresent c.digest m st.index) with
  | true => rw [pf_delete_eq cc m st c hdel] at h; cases h
  | false =>
    cases hcf : (cc && conflictAt st.store (storeKey first) c.digest) with
    | true => rw [pf_conflict_eq cc m st c hdel hm hcf] at h; cases h
    | false => exact ⟨rfl, rfl⟩

/-! Claim theorems. -/

/-- C1 counterexample: with conflict checking disabled, `process_file`
moves the candidate onto an existing primary file whose digest differs,
replacing its bytes, so the claimed invariant fails "under any
conflict-checking setting". -/
theorem c1_counter :
    alook ([("foo.png", "d1")] : Store) "foo.png" = some "d1" ∧ ("d1" : String) ≠ "d2" ∧
    alook (processFile false [("d2", ["foo"])]
        ⟨[("foo.png", "d1")], [], [("d1", ["foo.png"])], []⟩
        ⟨"x/y.png", "y", "d2"⟩).1.store "foo.png" = some "d2" := by decide

/-- C1 amended: when conflict checking is enabled for the pass, no mutation
of `process_file` changes the digest recorded at any existing store path;
and under either setting, every path other than the selected primary
destination (in particular every alias-copy target) keeps its digest. -/
theorem c1_amended :
    (∀ (m : Mapping) (st : PassSt) (c : Candidate) (x d : String),
      alook st.store x = some d →
      alook (processFile true m st c).1.store x = some d) ∧
    (∀ (cc : Bool) (m : Mapping) (st : PassSt) (c : Candidate)
        (first : String) (rest : List String) (x d : String),
      alook m c.digest = some (first :: rest) → x ≠ storeKey first →
      alook st.store x = some d →
      alook (processFile cc m st c).1.store x = some d) := by
  constructor
  · intro m st c x d h
    cases hdel : ((alook st.index c.digest).isSome &&
        allMappedFilesPresent c.digest m st.index) with
    | true => rw [pf_delete_eq true m st c hdel]; exact h
    | false =>
      rcases hm : alook m c.digest with _ | ns
      · rw [pf_unmapped_eq true m st c hm]; exact h
      · cases ns with
        | nil => rw [pf_errored_eq true m st c hdel hm]; exact h
        | cons first rest =>
          cases hcf : (true && conflictAt st.store (storeKey first) c.digest) with
          | true => rw [pf_conflict_eq true m st c hdel hm hcf]; exact h
          | false =>
            rw [pf_deploy_eq true m st c hdel hm hcf]
            have hnc : conflictAt st.store (storeKey first) c.digest = false := by
              rw [Bool.true_and] at hcf
              exact hcf
            exact deployCandidate_store_pres hnc h
  · intro cc m st c first rest x d hm hx h
    cases hdel : ((alook st.index c.digest).isSome &&
        allMappedFilesPresent c.digest m st.index) with
    | true => rw [pf_delete_eq cc m st c hdel]; exact h
    | false =>
      cases hcf : (cc && conflictAt st.store (storeKey first) c.digest) with
      | true => rw [pf_conflict_eq cc m st c hdel hm hcf]; exact h
      | false =>
        rw [pf_deploy_eq cc m st c hdel hm hcf]
        exact deployCandidate_store_pres_ne hx h

/-- Witness for the amended C1 at a concrete conflicting input. -/
theorem c1_witness :
    alook (processFile true [("d2", ["foo"])]
        ⟨[("foo.png", "d1")], [], [("d1", ["foo.png"])], []⟩
        ⟨"x/y.png", "y", "d2"⟩).1.store "foo.png" = some "d1" :=
  c1_amended.1 [("d2", ["foo"])]
    ⟨[("foo.png", "d1")], [], [("d1", ["foo.png"])], []⟩
    ⟨"x/y.png", "y", "d2"⟩ "foo.png" "d1" (by decide)

/-- C2: running the full ordered pass sequence a second time over the world
produced by the first run changes nothing: deletions only remove candidate
files whose mapped aliases are already present, deployments are keyed on
table membership, and alias restoration copies only absent names, so a
reconciled tree is a fixed point (in this model even the decision log gains
no entries). -/
theorem c2_idempotent (specs : List (Bool × Mapping))
    (hwf : ∀ p ∈ specs, MappingWF p.2) (w : World) :
    runSequence specs (runSequence specs w) = runSequence specs w :=
  runSequence_id specs _ (fun p hp => runSequence_stable specs hwf w p hp)

/-- Witness for C2 on a one-pass sequence deploying one candidate. -/
theorem c2_witness :
    (∀ p ∈ ([(false, [("d1", ["alpha"])])] : List (Bool × Mapping)), MappingWF p.2) ∧
    runSequence [(false, [("d1", ["alpha"])])]
        (runSequence [(false, [("d1", ["alpha"])])]
          ⟨[], [], [⟨"src/alpha.png", "alpha", "d1"⟩], []⟩) =
      runSequence [(false, [("d1", ["alpha"])])]
        ⟨[], [], [⟨"src/alpha.png", "alpha", "d1"⟩], []⟩ :=
  ⟨by decide, c2_idempotent _ (by decide) _⟩

/-- C3 counterexample, both directions the claim misses.  First, a file
with a differing digest occupies the primary destination yet no conflict
arises because conflict checking is disabled for the pass.  Second, even
with conflict checking enabled, the redundant-delete check takes
precedence: with alias name `foo-[1]` and a quarantined `conflicted/`
file of the same basename carrying the candidate digest, the freshly
scanned index satisfies the delete guard and the candidate is deleted
although a differing-digest file occupies the primary path. -/
theorem c3_counter :
    (conflictAt [("foo.png", "d1")] (storeKey "foo") "d2" = true ∧
      (processFile false [("d2", ["foo"])]
          ⟨[("foo.png", "d1")], [], [("d1", ["foo.png"])], []⟩
          ⟨"x/y.png", "y", "d2"⟩).2 ≠ Outcome.conflict) ∧
    (conflictAt [("foo-[1].png", "d1")] (storeKey "foo-[1]") "d2" = true ∧
      (processFile true [("d2", ["foo-[1]"])]
          ⟨[("foo-[1].png", "d1")], [⟨"foo", 1, "d2"⟩],
            buildIndex [("foo-[1].png", "d1")] [⟨"foo", 1, "d2"⟩], []⟩
          ⟨"x/c.png", "c", "d2"⟩).2 = Outcome.delete) := by decide

/-- C3 amended: for a candidate whose digest is in the table, when conflict
checking is enabled for the pass and the redundant-delete check (which runs
first) does not discard the candidate, a conflict arises exactly when a
file with a differing digest occupies the primary destination; on conflict
the candidate is quarantined, both digests are logged, and store and index
are untouched. -/
theorem c3_amended (m : Mapping) (st : PassSt) (c : Candidate)
    (first : String) (rest : List String)
    (hm : alook m c.digest = some (first :: rest))
    (hdel : ((alook st.index c.digest).isSome &&
      allMappedFilesPresent c.digest m st.index) = false) :
    ((processFile true m st c).2 = Outcome.conflict ↔
      conflictAt st.store (storeKey first) c.digest = true) ∧
    ((processFile true m st c).2 = Outcome.conflict →
      (processFile true m st c).1.store = st.store ∧
      (processFile true m st c).1.index = st.index ∧
      (processFile true m st c).1.log = st.log ++
        [LogEntry.conflictEntry c.relPath first (conflictIndex st.conflicted first)
          c.digest ((alook st.store (storeKey first)).getD "")]) := by
  constructor
  · constructor
    · intro h
      exact ((Bool.true_and _).symm.trans (pf_conflict_inversion hm h).2)
    · intro hcf
      rw [pf_conflict_eq true m st c hdel hm (by rw [Bool.true_and]; exact hcf)]
  · intro h
    obtain ⟨hdel2, hcf⟩ := pf_conflict_inversion hm h
    rw [pf_conflict_eq true m st c hdel2 hm hcf]
    exact ⟨rfl, rfl, rfl⟩

/-- Witness for the amended C3 at a concrete conflicting input. -/
theorem c3_witness :
    (processFile true [("d2", ["foo"])]
        ⟨[("foo.png", "d1")], [], [("d1", ["foo.png"])], []⟩
        ⟨"x/y.png", "y", "d2"⟩).2 = Outcome.conflict ↔
      conflictAt [("foo.png", "d1")] (storeKey "foo") "d2" = true :=
  (c3_amended [("d2", ["foo"])]
    ⟨[("foo.png", "d1")], [], [("d1", ["foo.png"])], []⟩
    ⟨"x/y.png", "y", "d2"⟩ "foo" [] (by decide) (by decide)).1

/-- C4: the primary alias is `next(iter(tex_names))`, the head of the
Python set's process-specific iteration order.  Two iteration orders of the
same set contents (a permutation of each other) drive `process_file` to a
conflict quarantine in one run and a deployment in another over the same
store, so the choice is not a run-stable function of the table contents. -/
theorem c4_order_dependent :
    List.Perm ["a", "b"] ["b", "a"] ∧
    (processFile true [("d2", ["a", "b"])]
        ⟨[("a.png", "d1")], [], [("d1", ["a.png"])], []⟩
        ⟨"x/c.png", "c", "d2"⟩).2 = Outcome.conflict ∧
    (processFile true [("d2", ["b", "a"])]
        ⟨[("a.png", "d1")], [], [("d1", ["a.png"])], []⟩
        ⟨"x/c.png", "c", "d2"⟩).2 = Outcome.deployed := by decide

/-- C5: a candidate is deleted exactly when its digest is in the index and
`all_mapped_files_present` holds, which compares the expected
`<alias>.png` names case-insensitively against the index entries for that
digest; in particular a candidate whose digest is absent from the current
table is never deleted. -/
theorem c5_delete_iff (cc : Bool) (m : Mapping) (st : PassSt) (c : Candidate) :
    ((processFile cc m st c).2 = Outcome.delete ↔
      ((alook st.index c.digest).isSome = true ∧
        allMappedFilesPresent c.digest m st.index = true)) ∧
    (alook m c.digest = none → (processFile cc m st c).2 ≠ Outcome.delete) := by
  refine ⟨pf_snd_delete_iff cc m st c, ?_⟩
  intro hm h
  rcases (pf_snd_delete_iff cc m st c).mp h with ⟨_, h2⟩
  rw [allMappedFilesPresent, hm] at h2
  cases h2

/-- Witness for C5: content already in the store is not deleted when its
digest is missing from the current table. -/
theorem c5_witness :
    (processFile false [("dX", ["t"])] ⟨[("t.png", "d0")], [], [("d0", ["t.png"])], []⟩
        ⟨"p/t.png", "t", "d0"⟩).2 ≠ Outcome.delete :=
  (c5_delete_iff false [("dX", ["t"])]
    ⟨[("t.png", "d0")], [], [("d0", ["t.png"])], []⟩
    ⟨"p/t.png", "t", "d0"⟩).2 (by decide)

/-- C6 counterexample: after reverification, `baz.png` holds digest `d`
which the table maps to aliases `foo` and `bar`; `bar.png` is restored, but
`foo.png` still holds the unrelated digest `e`, so not every alias is
present "with a matching digest". -/
theorem c6_counter :
    alook ([("d", ["foo", "bar"])] : Mapping) "d" = some ["foo", "bar"] ∧
    ("baz.png", "d") ∈ reverify [("d", ["foo", "bar"])]
        [("baz.png", "d"), ("foo.png", "e")] [] ∧
    alook (reverify [("d", ["foo", "bar"])] [("baz.png", "d"), ("foo.png", "e")] [])
        "foo.png" = some "e" ∧
    ("e" : String) ≠ "d" := by decide

/-- C6 amended: after the reverification pass, every file of the
destination tree whose digest is in the table has every mapped alias name
present in the store, and every binding of the resulting store either
pre-existed or carries the digest of a sibling file of the tree it was
copied from; matching digests at pre-existing alias paths are not
guaranteed. -/
theorem c6_amended (m : Mapping) (store : Store) (conf : List QEntry) :
    (∀ p ∈ reverify m store conf ++ QFiles conf, ∀ ns, alook m p.2 = some ns →
      ∀ t ∈ ns, (alook (reverify m store conf) (storeKey t)).isSome = true) ∧
    (∀ p ∈ reverify m store conf, p ∈ store ∨ ∃ f ∈ store ++ QFiles conf, p.2 = f.2) :=
  ⟨reverify_complete m store conf, fun _ hp => reverify_mem hp⟩

/-- Witness for the amended C6: the missing alias `bar.png` is restored. -/
theorem c6_witness :
    (alook (reverify [("d", ["foo", "bar"])] [("baz.png", "d")] [])
      (storeKey "bar")).isSome = true :=
  (c6_amended [("d", ["foo", "bar"])] [("baz.png", "d")] []).1 ("baz.png", "d")
    (by decide) ["foo", "bar"] (by decide) "bar" (by decide)

/-- C7: a row whose trimmed alpha-levels field is `[0]` and whose name is
not allow-listed is skipped and recorded for the log; every other row with
non-empty digest and name is merged with the digest lowercased; merging
accumulates alias names as a set, preserving existing ones. -/
theorem c7_loader (rows : List Row) :
    (∀ r ∈ rows, rejectedRow r →
      (rowDigest r, rowName r) ∈ (loadSha1Mapping rows).2) ∧
    (∀ (acc : Mapping × List (String × String)) (r : Row), rejectedRow r →
      loadStep acc r = (acc.1, acc.2 ++ [(rowDigest r, rowName r)])) ∧
    (∀ (acc : Mapping × List (String × String)) (r : Row),
      rowDigest r ≠ "" → rowName r ≠ "" → ¬rejectedRow r →
      loadStep acc r = (mapAdd acc.1 (rowDigest r) (rowName r), acc.2)) ∧
    (∀ (mp : Mapping) (d t : String), t ∈ (alook (mapAdd mp d t) d).getD []) ∧
    (∀ (mp : Mapping) (d t d2 t2 : String), t2 ∈ (alook mp d2).getD [] →
      t2 ∈ (alook (mapAdd mp d t) d2).getD []) := by
  refine ⟨fun r hr hrej => ?_, loadStep_rejected, loadStep_merged, mapAdd_mem_self,
    fun mp d t d2 t2 h => mapAdd_mem_mono mp d t h⟩
  rw [loadSha1Mapping]
  exact load_skipped_of_rejected rows ([], []) r hr hrej

/-- Witness for C7: a degenerate alpha-zero row lands in the skip list with
its digest lowercased. -/
theorem c7_witness :
    ("aa", "tex1") ∈ (loadSha1Mapping [⟨"AA", "tex1", "[0]"⟩]).2 :=
  (c7_loader [⟨"AA", "tex1", "[0]"⟩]).1 ⟨"AA", "tex1", "[0]"⟩ (by decide) (by decide)

/-- C8 counterexample: a candidate whose original basename equals the
primary alias name is moved into the store, yet no log line at all is
appended, because the deploy log is guarded by the original-name check. -/
theorem c8_counter :
    (processFile false [("d1", ["foo"])] ⟨[], [], [], []⟩
        ⟨"a/foo.png", "foo", "d1"⟩).2 = Outcome.deployed ∧
    (processFile false [("d1", ["foo"])] ⟨[], [], [], []⟩
        ⟨"a/foo.png", "foo", "d1"⟩).1.log = [] ∧
    alook (processFile false [("d1", ["foo"])] ⟨[], [], [], []⟩
        ⟨"a/foo.png", "foo", "d1"⟩).1.store (storeKey "foo") = some "d1" := by decide

/-- C8 amended: every delete and every conflict decision appends a log
entry carrying the digests and paths involved; a deploy appends its log
line only when the candidate's original basename contains no dash and
differs from the primary alias name. -/
theorem c8_amended (cc : Bool) (m : Mapping) (st : PassSt) (c : Candidate) :
    ((processFile cc m st c).2 = Outcome.delete →
      (processFile cc m st c).1.log =
        st.log ++ [LogEntry.deleteEntry c.relPath c.digest]) ∧
    (∀ first rest, alook m c.digest = some (first :: rest) →
      (processFile cc m st c).2 = Outcome.conflict →
      (processFile cc m st c).1.log = st.log ++
        [LogEntry.conflictEntry c.relPath first (conflictIndex st.conflicted first)
          c.digest ((alook st.store (storeKey first)).getD "")]) ∧
    (∀ first rest, alook m c.digest = some (first :: rest) →
      (processFile cc m st c).2 = Outcome.deployed →
      strContains c.name '-' = false → c.name ≠ lowerStr first →
      LogEntry.deployEntry c.relPath first c.digest ∈ (processFile cc m st c).1.log) := by
  refine ⟨?_, ?_, ?_⟩
  · intro h
    have hdel := (pf_snd_delete_iff cc m st c).mp h
    rw [pf_delete_eq cc m st c (by rw [hdel.1, hdel.2]; rfl)]
  · intro first rest hm h
    obtain ⟨hdel, hcf⟩ := pf_conflict_inversion hm h
    rw [pf_conflict_eq cc m st c hdel hm hcf]
    rfl
  · intro first rest hm h h3 h4
    obtain ⟨hdel, hcf⟩ := pf_deployed_inversion hm h
    rw [pf_deploy_eq cc m st c hdel hm hcf]
    have hcond : ((!strContains c.name '-') && (c.name != lowerStr first)) = true := by
      rw [h3]
      simp only [Bool.not_false, Bool.true_and, bne_iff_ne, ne_eq]
      exact h4
    rw [deployCandidate]
    apply copyFold_log_mem
    simp only [hcond, if_true]
    exact List.mem_append_right _ (List.mem_singleton.mpr rfl)

/-- Witness for the amended C8: a deletion is logged with path and digest. -/
theorem c8_witness :
    (processFile false [("d1", ["t"])] ⟨[("t.png", "d1")], [], [("d1", ["t.png"])], []⟩
        ⟨"x/t.png", "t", "d1"⟩).1.log = [LogEntry.deleteEntry "x/t.png" "d1"] :=
  (c8_amended false [("d1", ["t"])] ⟨[("t.png", "d1")], [], [("d1", ["t.png"])], []⟩
    ⟨"x/t.png", "t", "d1"⟩).1 (by decide)

/-- C9: the quarantine disambiguator is the least positive index whose
`conflicted/<base>-[k].png` path is free, so a quarantined candidate never
lands on an existing quarantine file, an empty quarantine yields index 1,
and the conflict branch of `process_file` files the candidate under exactly
that index. -/
theorem c9_conflict_path (q : List QEntry) (base : String) :
    1 ≤ conflictIndex q base ∧
    qtaken q base (conflictIndex q base) = false ∧
    (∀ j, 1 ≤ j → qtaken q base j = false → conflictIndex q base ≤ j) ∧
    conflictIndex [] base = 1 ∧
    (∀ (m : Mapping) (st : PassSt) (c : Candidate) (first : String) (rest : List String),
      alook m c.digest = some (first :: rest) →
      (processFile true m st c).2 = Outcome.conflict →
      (processFile true m st c).1.conflicted =
        ⟨first, conflictIndex st.conflicted first, c.digest⟩ :: st.conflicted) := by
  refine ⟨conflictIndex_pos q base, conflictIndex_free q base,
    fun j h1 h2 => conflictIndex_min q base h1 h2, conflictIndex_nil base, ?_⟩
  intro m st c first rest hm h
  obtain ⟨hdel, hcf⟩ := pf_conflict_inversion hm h
  rw [pf_conflict_eq true m st c hdel hm hcf]
  rfl

/-- Witness for C9: with `foo-[1].png` taken, the next candidate index is
at most 2 (and the other conjuncts pin it to exactly 2). -/
theorem c9_witness :
    conflictIndex [⟨"foo", 1, "dA"⟩] "foo" ≤ 2 :=
  (c9_conflict_path [⟨"foo", 1, "dA"⟩] "foo").2.2.1 2 (by decide) (by decide)

/-- C10: the loaded known-digest set never contains the all-zero digest,
even when it occurs in the ledger rows, so a store file hashing to the
all-zero digest is always reported as unknown by the coverage check. -/
theorem c10_zero_digest (rows : List String) (files : List (String × String)) :
    zeroSha1 ∉ loadPcsx2Sha1List rows ∧
    (∀ f ∈ files, f.2 = zeroSha1 →
      f ∈ verifyHashPresence files (loadPcsx2Sha1List rows)) := by
  refine ⟨loadPcsx2_no_zero rows, fun f hf hz => verifyHash_mem hf ?_⟩
  rw [hz]
  exact loadPcsx2_no_zero rows

/-- Witness for C10: a ledger containing the all-zero digest still reports
a store file with that digest as unknown. -/
theorem c10_witness :
    ("f.png", zeroSha1) ∈ verifyHashPresence [("f.png", zeroSha1)]
      (loadPcsx2Sha1List [zeroSha1, "abc"]) :=
  (c10_zero_digest [zeroSha1, "abc"] [("f.png", zeroSha1)]).2 ("f.png", zeroSha1)
    (by decide) (by decide)

end MGS2
